import Mathlib

/-!
Verification development for the mdl-anonymizer core algorithms:
the SwapLocations anonymizer, the time-partitioned microaggregation
orchestrator, and the record-linkage disclosure-risk estimator
(`Stats.get_record_linkage` / `Stats.get_fast_record_linkage`).

The Python sources are embedded shallowly: pure computations become Lean
functions, Python floats become `ℚ`, Python ints become `ℤ`/`ℕ`, fallible
code (attribute errors, division by zero, index errors) returns
`Except`/`Option`.  External strategy objects (distance, aggregation,
clustering, the haversine geometry primitives) are parameters, as in the
source they are injected collaborators.
-/

namespace MobAnon

/-! ### Generic helpers

`sortByKey` models Python's stable `list.sort(key=...)` / `sorted(key=...)`
(insertion sort is stable: an element is inserted after all earlier
elements with an equal key). -/

def orderedInsertKey {α β : Type} [LinearOrder β] (key : α → β) (a : α) : List α → List α
  | [] => [a]
  | b :: l => if key a ≤ key b then a :: b :: l else b :: orderedInsertKey key a l

def sortByKey {α β : Type} [LinearOrder β] (key : α → β) : List α → List α
  | [] => []
  | a :: l => orderedInsertKey key a (sortByKey key l)


/-- First strict minimum of `f` over `m :: l`, scanning left to right and
replacing the current best only on a strictly smaller value — the
accumulator shape of the `min_dist`/`min_traj` loops in `Stats`. -/
def firstMinFrom {α : Type} (f : α → ℚ) (m : α) : List α → α
  | [] => m
  | x :: xs => if f x < f m then firstMinFrom f x xs else firstMinFrom f m xs

/-- The `min_dist = inf; for ...: if dist < min_dist` scan.  The first
element always displaces the infinite initial distance (every `ℚ` distance
is finite), so a nonempty scan returns its first strict minimizer. -/
def firstMin {α : Type} (f : α → ℚ) : List α → Option α
  | [] => none
  | x :: xs => some (firstMinFrom f x xs)

/-- Integer range `[lo, lo+1, ..., hi]`, the result of Python's
`range(lo, hi + 1)` turned into a list. -/
def intRange (lo hi : ℤ) : List ℤ :=
  (List.range (hi + 1 - lo).toNat).map fun i => lo + Int.ofNat i

/-- Python list indexing `l[i]`: a negative index counts from the end,
an index out of range on either side raises `IndexError` (here `none`). -/
def pyGet {α : Type} (l : List α) (i : ℤ) : Option α :=
  if 0 ≤ i then l[i.toNat]?
  else if 0 ≤ (l.length : ℤ) + i then l[((l.length : ℤ) + i).toNat]? else none

/-- Sequential Python indexing of a list of positions; the first
`IndexError` aborts the whole computation. -/
def pyGets {α : Type} (l : List α) : List ℤ → Option (List α)
  | [] => some []
  | i :: is =>
    match pyGet l i, pyGets l is with
    | some x, some rest => some (x :: rest)
    | _, _ => none

/-! ### SwapLocations (`anonymization_methods/SwapLocations/SwapLocations.py`)

Locations are an abstract type `L`; the haversine-based
`Location.temporal_distance` / `Location.spatial_distance` geometry
primitives are external and enter as parameters `tdist`, `sdist`.
The random draws of `run` (`random.choice`, `random.shuffle`) enter as
oracle parameters `pick` (an index into the remaining pool) and `shuf`. -/

/-- The state `__init__` leaves behind.  `step_s`/`step_t` are `Option`
because the constructor assigns them only on the `if not step_s:` /
`if not step_t:` branches; `none` models the attribute never having been
assigned (reading it raises `AttributeError`). -/
structure SwapConfig where
  k : ℕ
  min_r_s : ℤ
  max_r_s : ℤ
  min_r_t : ℤ
  max_r_t : ℤ
  step_s : Option ℤ
  step_t : Option ℤ

/-- Python truthiness of an optional integer argument: `None` and `0` are
falsy, any other int is truthy. -/
def pyTruthy : Option ℤ → Bool
  | none => false
  | some v => v != 0

namespace SwapLocations

/-- `SwapLocations.__init__`: radii are stored as given; `self.step_s`
(resp. `self.step_t`) is assigned `int(abs(max - min) / 2)` only when the
argument is falsy, and is otherwise never assigned (the passed value is
discarded entirely). -/
def init (k : ℕ) (max_r_s max_r_t min_r_s min_r_t : ℤ)
    (step_s step_t : Option ℤ) : SwapConfig where
  k := k
  min_r_s := min_r_s
  max_r_s := max_r_s
  min_r_t := min_r_t
  max_r_t := max_r_t
  step_s := if pyTruthy step_s then none else some (((max_r_s - min_r_s).natAbs / 2 : ℕ) : ℤ)
  step_t := if pyTruthy step_t then none else some (((max_r_t - min_r_t).natAbs / 2 : ℕ) : ℤ)

/-- Modelled from the spec: `utils.inclusive_range` is code of this
repository that is not under `src/`.  Per the spec it iterates from the
minimum to the maximum threshold in fixed steps, the default step being
half the min–max span ("at most min, mid, max"), with the maximum
included. -/
def inclusive_range (a b : ℤ) (step : Option ℤ) : List ℤ :=
  let s := step.getD (((b - a).natAbs / 2 : ℕ) : ℤ)
  if b ≤ a then [a]
  else if s ≤ 0 then [a, b]
  else
    let ms := (List.range ((b - a).toNat / s.toNat + 1)).map fun i => a + (i : ℤ) * s
    if ms.getLast? = some b then ms else ms ++ [b]

/-- One pass of the `for i, l in enumerate(remaining_locations)` scan of
`__build_cluster` at fixed radii `(R_t, R_s)`: keep pool entries from a
different trajectory whose temporal distance to the anchor is `≤ R_t` and
whose spatial distance is within `[0, R_s]`.  (The
`*_distances_computed` dictionaries are a pure memoisation and do not
change values, so they are not modelled.) -/
def clusterCandidates {L : Type} (tdist sdist : L → L → ℚ)
    (remaining : List (ℕ × L)) (chosen : ℕ × L) (r_t r_s : ℤ) : List (ℕ × L) :=
  remaining.filter fun l =>
    decide (chosen.1 ≠ l.1 ∧ tdist chosen.2 l.2 ≤ (r_t : ℚ) ∧
      0 ≤ sdist chosen.2 l.2 ∧ sdist chosen.2 l.2 ≤ (r_s : ℚ))

/-- The `used_trajectories` comprehension of `__build_cluster`: keep only
the first location encountered for each trajectory id. -/
def firstPerTrajectory {L : Type} : List (ℕ × L) → List ℕ → List (ℕ × L)
  | [], _ => []
  | x :: xs, used =>
    if x.1 ∈ used then firstPerTrajectory xs used
    else x :: firstPerTrajectory xs (x.1 :: used)

/-- The inner `for R_s in spatial_range` loop: return the first filtered
candidate set of size `≥ k - 1`. -/
def searchSpatial {L : Type} (tdist sdist : L → L → ℚ) (k : ℕ)
    (remaining : List (ℕ × L)) (chosen : ℕ × L) (r_t : ℤ) :
    List ℤ → Option (List (ℕ × L))
  | [] => none
  | r_s :: rest =>
    let u := firstPerTrajectory (clusterCandidates tdist sdist remaining chosen r_t r_s) []
    if k - 1 ≤ u.length then some u
    else searchSpatial tdist sdist k remaining chosen r_t rest

/-- The outer `for R_t in temporal_range` loop of `__build_cluster`. -/
def searchTemporal {L : Type} (tdist sdist : L → L → ℚ) (k : ℕ)
    (remaining : List (ℕ × L)) (chosen : ℕ × L) (spatial_range : List ℤ) :
    List ℤ → Option (List (ℕ × L))
  | [] => none
  | r_t :: rest =>
    match searchSpatial tdist sdist k remaining chosen r_t spatial_range with
    | some u => some u
    | none => searchTemporal tdist sdist k remaining chosen spatial_range rest

/-- `SwapLocations.__build_cluster`.  Reading `self.step_t`/`self.step_s`
(lines 70–71) raises `AttributeError` when the constructor never assigned
them, modelled as `.error ()`.  A `none` result is the `return None`
"no existing cluster" exit. -/
def build_cluster {L : Type} (tdist sdist : L → L → ℚ) (cfg : SwapConfig)
    (remaining : List (ℕ × L)) (chosen : ℕ × L) :
    Except Unit (Option (List (ℕ × L))) :=
  match cfg.step_t, cfg.step_s with
  | some st, some ss =>
    let temporal_range := inclusive_range cfg.min_r_t cfg.max_r_t
      (if 0 < st then some st else none)
    let spatial_range := inclusive_range cfg.min_r_s cfg.max_r_s
      (if 0 < ss then some ss else none)
    .ok (searchTemporal tdist sdist cfg.k remaining chosen spatial_range temporal_range)
  | _, _ => .error ()

/-- The assignment pairs of `run` lines 145–150: `trajectories_id` is read
off the cluster `U` before shuffling, then the shuffled members' locations
are assigned positionally, pairing `trajectories_id[i]` with the location
of the `i`-th shuffled member. -/
def assignedPairs {L : Type} (U shuffled : List (ℕ × L)) : List (ℕ × L) :=
  (U.map Prod.fst).zip (shuffled.map Prod.snd)

/-- Modelled from the spec: `Dataset.get_trajectory` /
`Trajectory.add_location(..., sort=False)` (the entity classes are not
under `src/`); per the spec the dataset fetches the trajectory by id and
appends the location unsorted.  Trajectory ids in the anonymized dataset
are unique (one per original id), so updating the first match is exact. -/
def add_location {L : Type} : List (ℕ × List L) → ℕ → L → List (ℕ × List L)
  | [], _, _ => []
  | t :: ts, i, loc =>
    if t.1 = i then (t.1, t.2 ++ [loc]) :: ts else t :: add_location ts i loc

/-- One iteration of the `while remaining_locations:` loop of `run`, for an
already chosen anchor: build the cluster, extend `U`, swap if `len(U) ≥ k`,
and remove every used pair from the pool (`list.remove` deletes the first
equal element, i.e. `List.erase`). -/
def swapIteration {L : Type} [DecidableEq L] (tdist sdist : L → L → ℚ)
    (cfg : SwapConfig) (shuf : List (ℕ × L) → List (ℕ × L))
    (remaining : List (ℕ × L)) (chosen : ℕ × L) (anon : List (ℕ × List L)) :
    Except Unit (List (ℕ × L) × List (ℕ × List L)) :=
  match build_cluster tdist sdist cfg remaining chosen with
  | .error e => .error e
  | .ok u_prima =>
    let U := chosen :: u_prima.getD []
    let anon' := if cfg.k ≤ U.length then
        (assignedPairs U (shuf U)).foldl (fun a p => add_location a p.1 p.2) anon
      else anon
    let remaining' := U.foldl (fun r l => r.erase l) remaining
    .ok (remaining', anon')

/-- The `while remaining_locations:` loop.  `fuel` bounds the number of
iterations; the caller passes the pool size, which suffices because every
iteration removes at least the anchor. -/
def swapLoop {L : Type} [DecidableEq L] (tdist sdist : L → L → ℚ)
    (cfg : SwapConfig) (pick : List (ℕ × L) → ℕ)
    (shuf : List (ℕ × L) → List (ℕ × L)) :
    ℕ → List (ℕ × L) → List (ℕ × List L) → Except Unit (List (ℕ × List L))
  | 0, _, anon => .ok anon
  | _ + 1, [], anon => .ok anon
  | fuel + 1, x :: rest, anon =>
    let remaining := x :: rest
    let chosen := remaining.get ⟨pick remaining % remaining.length, Nat.mod_lt _ (Nat.succ_pos _)⟩
    match swapIteration tdist sdist cfg shuf remaining chosen anon with
    | .error e => .error e
    | .ok pr => swapLoop tdist sdist cfg pick shuf fuel pr.1 pr.2

/-- `SwapLocations.run`: seed one empty anonymized trajectory per original
id, flatten all `(trajectory id, location)` pairs into the pool, swap until
the pool is empty, then drop anonymized trajectories with fewer than two
locations and sort the rest by id (`Dataset.sort_trajectories`, an entity
operation not under `src/`, is modelled from the spec as the stable sort by
trajectory id). -/
def run {L : Type} [DecidableEq L] (tdist sdist : L → L → ℚ) (cfg : SwapConfig)
    (pick : List (ℕ × L) → ℕ) (shuf : List (ℕ × L) → List (ℕ × L))
    (dataset : List (ℕ × List L)) : Except Unit (List (ℕ × List L)) :=
  let anon0 := dataset.map fun t => (t.1, ([] : List L))
  let remaining := (dataset.map fun t => t.2.map fun l => (t.1, l)).flatten
  match swapLoop tdist sdist cfg pick shuf remaining.length remaining anon0 with
  | .error e => .error e
  | .ok anon => .ok (sortByKey (fun t => t.1) (anon.filter fun t => decide (1 < t.2.length)))

end SwapLocations

/-! ### TimePartMicroaggregation
(`anonymization_methods/Microaggregation/TimePartMicroaggregation.py`)

Trajectories carry an id, a user id and a location list over an abstract
location type `L`; `ts : L → ℤ` reads a location's timestamp.  The
clustering and aggregation strategies are external interfaces and enter as
parameters `clus` and `agg`. -/

structure ATraj (L : Type) where
  id : ℤ
  user_id : ℤ
  locs : List L
deriving DecidableEq

namespace TimePartMicroaggregation

/-- `t.locations[0].timestamp`, the partition key of `run`.  The source
indexes `locations[0]`; a trajectory with no locations is outside the
contract (it would raise `IndexError`), so it is given key `0` here. -/
def first_ts {L : Type} (ts : L → ℤ) (t : ATraj L) : ℤ :=
  match t.locs with
  | [] => 0
  | l :: _ => ts l

/-- The inner `while current_t <= final_t and index < len(ordered)-1` walk
of `run`: move elements whose key is within `final_t` from the front into
the partition, never touching the last remaining element.  At each test the
walked-to element is the head of the rest and `index < len - 1` means the
rest still has at least two elements. -/
def timeWalk {α : Type} (f : α → ℤ) (final_t : ℤ) : List α → List α × List α
  | x :: y :: rest =>
    if f x ≤ final_t then
      (x :: (timeWalk f final_t (y :: rest)).1, (timeWalk f final_t (y :: rest)).2)
    else ([], x :: y :: rest)
  | l => ([], l)

/-- The `if len(partition) < self.k: while len(partition) < self.k` refill:
keep pulling elements regardless of timestamp until the partition has `k`.
(The outer guard `len(ordered) ≥ k` makes the pulls in-bounds in Python.) -/
def fillK {α : Type} (k : ℕ) : List α × List α → List α × List α
  | (p, r) =>
    if p.length < k then (p ++ r.take (k - p.length), r.drop (k - p.length))
    else (p, r)

/-- The `while len(ordered_trajectories) >= self.k` partition loop of
`run`, returning the completed batches and the leftover tail.  `fuel`
bounds the iterations; the list length suffices since each batch takes at
least one element (for `k ≥ 1`).  The `[] => ([], [])` arm is unreachable
for `k ≥ 1` (Python would raise `IndexError` there when `k = 0`). -/
def partitionLoop {α : Type} (k : ℕ) (interval : ℤ) (f : α → ℤ) :
    ℕ → List α → List (List α) × List α
  | 0, ordered => ([], ordered)
  | _ + 1, [] => ([], [])
  | fuel + 1, x :: tail =>
    if (x :: tail).length < k then ([], x :: tail)
    else
      let pr := fillK k (timeWalk f (f x + interval) (x :: tail))
      let rec_result := partitionLoop k interval f fuel pr.2
      (pr.1 :: rec_result.1, rec_result.2)

/-- `datasets[-1].trajectories.extend(ordered_trajectories)`: the trailing
remainder is appended to the last completed batch.  On an empty batch list
Python raises `IndexError` (unreachable when the input has `≥ k ≥ 1`
trajectories). -/
def appendToLast {α : Type} : List (List α) → List α → List (List α)
  | [], _ => []
  | [b], rest => [b ++ rest]
  | b :: b2 :: bs, rest => b :: appendToLast (b2 :: bs) rest

/-- The whole partition phase of `run` (lines 57–78): sort by first
location timestamp, split into batches, merge the trailing remainder into
the last batch. -/
def timePartition {α : Type} (k : ℕ) (interval : ℤ) (f : α → ℤ)
    (input : List α) : List (List α) :=
  let ordered := sortByKey f input
  let pr := partitionLoop k interval f ordered.length ordered
  appendToLast pr.1 pr.2

/-- `TimePartMicroaggregation.process_clusters`: for each cluster,
initialize one anonymized trajectory per member with the member's id and
user id, compute the aggregate trajectory, give every anonymized trajectory
the aggregate's locations (`add_locations` extends the empty list) and add
it to the anonymized dataset (`Dataset.add_trajectory`, an entity operation
not under `src/`, is modelled from the spec as appending). -/
def process_clusters {L : Type} (agg : List (ATraj L) → ATraj L)
    (clusters : List (List (ATraj L))) (anonDS : List (ATraj L)) : List (ATraj L) :=
  clusters.foldl (fun ds cluster_trajectories =>
    let anon_trajectories := cluster_trajectories.map fun t => ATraj.mk t.id t.user_id []
    let aggregate_trajectory := agg cluster_trajectories
    anon_trajectories.foldl (fun ds2 T =>
      ds2 ++ [{ T with locs := T.locs ++ aggregate_trajectory.locs }]) ds) anonDS

/-- `TimePartMicroaggregation.run`: partition, then per partition ask the
clustering strategy for clusters and process them, and finally sort the
anonymized trajectories by id (line 93). -/
def run {L : Type} (k : ℕ) (interval : ℤ) (ts : L → ℤ)
    (clus : List (ATraj L) → List (List (ATraj L)))
    (agg : List (ATraj L) → ATraj L) (dataset : List (ATraj L)) : List (ATraj L) :=
  let datasets := timePartition k interval (first_ts ts) dataset
  let processed := datasets.foldl (fun anon ds => process_clusters agg (clus ds) anon) []
  sortByKey (fun t => t.id) processed

end TimePartMicroaggregation

/-! ### Stats record linkage (`utils/Stats.py`)

Trajectories carry an id and their location-sequence content; two
trajectories hash/compare equal as dictionary keys exactly when their
content matches, so the `control`/`ids` dictionaries are keyed by content.
The distance strategy's `compute_without_map` and
`compute_distance_to_reference_trajectory` are external and enter as
parameters `d` and `dtr`. -/

structure RTraj where
  id : ℤ
  locs : List ℤ
deriving DecidableEq

namespace Stats

/-- The duplicate-count dictionary `control` built by the first loop of
`get_record_linkage` / `get_fast_record_linkage` (the source fills both
dictionaries in one loop; the two folds here perform the same updates).
Keys absent from the dictionary count `0`. -/
def build_control (origs : List RTraj) : List ℤ → ℕ :=
  origs.foldl (fun ctl t => fun c => if c = t.locs then ctl c + 1 else ctl c) (fun _ => 0)

/-- The `ids` dictionary: for each content key, the ids of the original
trajectories with that content, in dataset order. -/
def build_ids (origs : List RTraj) : List ℤ → List ℤ :=
  origs.foldl (fun idm t => fun c => if c = t.locs then idm c ++ [t.id] else idm c) (fun _ => [])

/-- The credit added for one anonymized trajectory once its minimum-distance
original `min_traj` is known: `1 / control[min_traj]` if the anonymized id
is in `ids[min_traj]`, else nothing. -/
def credit (control : List ℤ → ℕ) (idm : List ℤ → List ℤ)
    (traj_anom min_traj : RTraj) : ℚ :=
  if traj_anom.id ∈ idm min_traj.locs then 1 / (control min_traj.locs : ℚ) else 0

/-- `Stats.get_record_linkage`.  For each anonymized trajectory the scan
over all originals keeps the first strict minimum of
`distance.compute_without_map(traj_ori, traj_anom)`.  An empty original
dataset is fatal (`ids[None]` raises `KeyError` inside the loop, and the
final division by `len(self.original_dataset)` raises
`ZeroDivisionError`), modelled as `none`. -/
def get_record_linkage (d : RTraj → RTraj → ℚ) (origs anons : List RTraj) : Option ℚ :=
  let control := build_control origs
  let idm := build_ids origs
  let total := anons.foldl (fun acc traj_anom =>
    acc.bind fun tp =>
      match firstMin (fun traj_ori => d traj_ori traj_anom) origs with
      | none => none
      | some min_traj => some (tp + credit control idm traj_anom min_traj)) (some 0)
  total.bind fun tp =>
    if origs.length = 0 then none else some (tp / (origs.length : ℚ) * 100)

/-- `bisect.bisect_left` on a sorted list: the leftmost insertion point,
i.e. the number of leading elements strictly below the target.  (All call
sites pass a list sorted ascending, the precondition `bisect` assumes.) -/
def bisect_left (l : List ℚ) (x : ℚ) : ℕ :=
  (l.takeWhile fun v => decide (v < x)).length

/-- `Stats.__take_closest` (`take_closest` here): binary-search index
selection with the "after strictly closer, else before" tie rule.  Note the
`pos == len(myList)` branch returns `pos` itself, one past the last valid
index. -/
def take_closest (l : List ℚ) (x : ℚ) : ℕ :=
  let pos := bisect_left l x
  if pos = 0 then pos
  else if pos = l.length then pos
  else
    let before := l.getD (pos - 1) 0
    let after := l.getD pos 0
    if after - x < x - before then pos else pos - 1

/-- `Stats.__take_closest_window` (`take_closest_window` here): a window of
`window_size` consecutive positions centred on the closest index, shifted
to compensate clamping at either end.  The returned positions are Python
ints and may be negative or exceed the list length. -/
def take_closest_window (l : List ℚ) (x : ℚ) (window_size : ℕ) : List ℤ :=
  let pos : ℤ := (take_closest l x : ℕ)
  let cut : ℤ := ((window_size / 2 : ℕ) : ℤ)
  let pb0 : ℤ := pos - cut + (if window_size % 2 = 0 then 1 else 0)
  let rest_before : ℤ := if pb0 < 0 then -pb0 else 0
  let pos_before : ℤ := if pb0 < 0 then 0 else pb0
  let pa0 : ℤ := pos + cut
  let rest_after : ℤ := if (l.length : ℤ) - 1 < pa0 then pa0 - ((l.length : ℤ) - 1) else 0
  let pos_after : ℤ := if (l.length : ℤ) - 1 < pa0 then (l.length : ℤ) - 1 else pa0
  intRange (pos_before - rest_after) (pos_after + rest_before)

/-- `Stats.get_fast_record_linkage`.  The `control`/`ids` dictionaries are
built before the re-sort, the originals are then stably sorted by their
reference-trajectory distance, and each anonymized trajectory only scans
the window positions (`self.original_dataset.trajectories[pos]`, Python
indexing).  The trailing re-sort by id only restores dataset state and does
not affect the returned score. -/
def get_fast_record_linkage (d : RTraj → RTraj → ℚ) (dtr : RTraj → ℚ)
    (origs anons : List RTraj) (window_size : ℕ) : Option ℚ :=
  let control := build_control origs
  let idm := build_ids origs
  let sorted := sortByKey dtr origs
  let distances := sorted.map dtr
  let total := anons.foldl (fun acc traj_anom =>
    acc.bind fun tp => do
      let window := take_closest_window distances (dtr traj_anom) window_size
      let scanned ← pyGets sorted window
      match firstMin (fun traj => d traj traj_anom) scanned with
      | none => none
      | some min_traj => pure (tp + credit control idm traj_anom min_traj)) (some 0)
  total.bind fun tp =>
    if origs.length = 0 then none else some (tp / (origs.length : ℚ) * 100)

end Stats


/-! ### Concrete instances used by witnesses and counterexamples -/

namespace Ex

def td : ℤ → ℤ → ℚ := fun a b => ((a - b).natAbs : ℚ)

def sd : ℤ → ℤ → ℚ := fun _ _ => 0

def cfg : SwapConfig := SwapLocations.init 2 0 0 0 0 none none

def pickFirst : List (ℕ × ℤ) → ℕ := fun _ => 0

def cfgSteps : SwapConfig := SwapLocations.init 3 500 120 100 60 (some 200) none

def T1 : RTraj := ⟨1, [0]⟩

def T2 : RTraj := ⟨2, [1]⟩

def A1 : RTraj := ⟨2, [5]⟩

def dconst : RTraj → RTraj → ℚ := fun _ _ => 7

def dref : RTraj → ℚ := fun t => if t.locs = [1] then 0 else 1

def dzero : RTraj → RTraj → ℚ := fun _ _ => 0

def drefzero : RTraj → ℚ := fun _ => 0

def wT : RTraj := ⟨1, [0]⟩

def wA : RTraj := ⟨1, [3]⟩

end Ex

/-! ### Lemmas -/

theorem orderedInsertKey_perm {α β : Type} [LinearOrder β] (key : α → β) (a : α) :
    ∀ l : List α, (orderedInsertKey key a l).Perm (a :: l)
  | [] => List.Perm.refl _
  | b :: l => by
    by_cases h : key a ≤ key b
    · simp [orderedInsertKey, h]
    · simp only [orderedInsertKey, h, if_false]
      exact ((orderedInsertKey_perm key a l).cons b).trans (List.Perm.swap a b l)

theorem sortByKey_perm {α β : Type} [LinearOrder β] (key : α → β) :
    ∀ l : List α, (sortByKey key l).Perm l
  | [] => List.Perm.refl _
  | a :: l => (orderedInsertKey_perm key a (sortByKey key l)).trans
      ((sortByKey_perm key l).cons a)

theorem orderedInsertKey_pairwise {α β : Type} [LinearOrder β] (key : α → β) (a : α) :
    ∀ l : List α, l.Pairwise (fun x y => key x ≤ key y) →
      (orderedInsertKey key a l).Pairwise (fun x y => key x ≤ key y)
  | [], _ => by simp [orderedInsertKey]
  | b :: l, h => by
    by_cases hab : key a ≤ key b
    · simp only [orderedInsertKey, hab, if_true]
      refine List.Pairwise.cons ?_ h
      intro x hx
      rcases List.mem_cons.mp hx with hx | hx
      · exact hx ▸ hab
      · exact le_trans hab ((List.pairwise_cons.mp h).1 x hx)
    · simp only [orderedInsertKey, hab, if_false]
      have hrec := orderedInsertKey_pairwise key a l (List.pairwise_cons.mp h).2
      refine List.Pairwise.cons ?_ hrec
      intro x hx
      have hx' := (orderedInsertKey_perm key a l).mem_iff.mp hx
      rcases List.mem_cons.mp hx' with hx' | hx'
      · exact hx' ▸ le_of_not_le hab
      · exact (List.pairwise_cons.mp h).1 x hx'

theorem sortByKey_pairwise {α β : Type} [LinearOrder β] (key : α → β) :
    ∀ l : List α, (sortByKey key l).Pairwise (fun x y => key x ≤ key y)
  | [] => by simp [sortByKey]
  | a :: l => orderedInsertKey_pairwise key a _ (sortByKey_pairwise key l)

theorem firstMinFrom_mem {α : Type} (f : α → ℚ) (m : α) :
    ∀ l : List α, firstMinFrom f m l ∈ m :: l
  | [] => by simp [firstMinFrom]
  | x :: xs => by
    by_cases h : f x < f m
    · simp only [firstMinFrom, h, if_true]
      have := firstMinFrom_mem f x xs
      simp only [List.mem_cons] at this ⊢
      tauto
    · simp only [firstMinFrom, h, if_false]
      have := firstMinFrom_mem f m xs
      simp only [List.mem_cons] at this ⊢
      tauto

theorem firstMinFrom_le {α : Type} (f : α → ℚ) (m : α) :
    ∀ l : List α, f (firstMinFrom f m l) ≤ f m ∧ ∀ x ∈ l, f (firstMinFrom f m l) ≤ f x
  | [] => by simp [firstMinFrom]
  | x :: xs => by
    by_cases h : f x < f m
    · simp only [firstMinFrom, h, if_true]
      have := firstMinFrom_le f x xs
      refine ⟨le_trans this.1 (le_of_lt h), ?_⟩
      intro y hy
      rcases List.mem_cons.mp hy with hy | hy
      · exact hy ▸ this.1
      · exact this.2 y hy
    · simp only [firstMinFrom, h, if_false]
      have := firstMinFrom_le f m xs
      refine ⟨this.1, ?_⟩
      intro y hy
      rcases List.mem_cons.mp hy with hy | hy
      · exact hy ▸ le_trans this.1 (le_of_not_lt h)
      · exact this.2 y hy

theorem firstMin_spec {α : Type} (f : α → ℚ) (x : α) (xs : List α) :
    ∃ m, firstMin f (x :: xs) = some m ∧ m ∈ x :: xs ∧ ∀ y ∈ x :: xs, f m ≤ f y := by
  refine ⟨firstMinFrom f x xs, rfl, firstMinFrom_mem f x xs, ?_⟩
  intro y hy
  rcases List.mem_cons.mp hy with hy | hy
  · exact hy ▸ (firstMinFrom_le f x xs).1
  · exact (firstMinFrom_le f x xs).2 y hy

/-! ### Lemmas about `__build_cluster` -/

theorem firstPerTrajectory_mem {L : Type} (l : List (ℕ × L)) (used : List ℕ)
    (x : ℕ × L) (h : x ∈ SwapLocations.firstPerTrajectory l used) : x ∈ l := by
  induction l generalizing used with
  | nil => simp [SwapLocations.firstPerTrajectory] at h
  | cons y ys ih =>
    by_cases hy : y.1 ∈ used
    · rw [SwapLocations.firstPerTrajectory, if_pos hy] at h
      exact List.mem_cons_of_mem y (ih used h)
    · rw [SwapLocations.firstPerTrajectory, if_neg hy] at h
      rcases List.mem_cons.mp h with h | h
      · exact h ▸ List.mem_cons_self y ys
      · exact List.mem_cons_of_mem y (ih _ h)

theorem firstPerTrajectory_nodup {L : Type} (l : List (ℕ × L)) (used : List ℕ) :
    ((SwapLocations.firstPerTrajectory l used).map Prod.fst).Nodup ∧
      ∀ x ∈ SwapLocations.firstPerTrajectory l used, x.1 ∉ used := by
  induction l generalizing used with
  | nil => simp [SwapLocations.firstPerTrajectory]
  | cons y ys ih =>
    by_cases hy : y.1 ∈ used
    · rw [SwapLocations.firstPerTrajectory, if_pos hy]
      exact ih used
    · rw [SwapLocations.firstPerTrajectory, if_neg hy]
      have hrec := ih (y.1 :: used)
      constructor
      · simp only [List.map_cons, List.nodup_cons]
        constructor
        · intro hmem
          rcases List.mem_map.mp hmem with ⟨x, hx, hx1⟩
          exact hrec.2 x hx (hx1 ▸ List.mem_cons_self _ _)
        · exact hrec.1
      · intro x hx
        rcases List.mem_cons.mp hx with hx | hx
        · exact hx ▸ hy
        · exact fun hmem => hrec.2 x hx (List.mem_cons_of_mem _ hmem)

theorem clusterCandidates_mem {L : Type} (tdist sdist : L → L → ℚ)
    (remaining : List (ℕ × L)) (chosen : ℕ × L) (r_t r_s : ℤ) (x : ℕ × L)
    (h : x ∈ SwapLocations.clusterCandidates tdist sdist remaining chosen r_t r_s) :
    x ∈ remaining ∧ x.1 ≠ chosen.1 := by
  have h' := List.mem_filter.mp h
  refine ⟨h'.1, ?_⟩
  have := of_decide_eq_true h'.2
  exact fun he => this.1 he.symm

theorem searchSpatial_some {L : Type} (tdist sdist : L → L → ℚ) (k : ℕ)
    (remaining : List (ℕ × L)) (chosen : ℕ × L) (r_t : ℤ) (rs : List ℤ)
    (u : List (ℕ × L))
    (h : SwapLocations.searchSpatial tdist sdist k remaining chosen r_t rs = some u) :
    k - 1 ≤ u.length ∧ ∃ r_s, u = SwapLocations.firstPerTrajectory
      (SwapLocations.clusterCandidates tdist sdist remaining chosen r_t r_s) [] := by
  induction rs with
  | nil => simp [SwapLocations.searchSpatial] at h
  | cons r_s rest ih =>
    rw [SwapLocations.searchSpatial] at h
    split at h
    · rename_i hlen
      cases h
      exact ⟨hlen, r_s, rfl⟩
    · exact ih h

theorem searchTemporal_some {L : Type} (tdist sdist : L → L → ℚ) (k : ℕ)
    (remaining : List (ℕ × L)) (chosen : ℕ × L) (spatial_range : List ℤ)
    (ts : List ℤ) (u : List (ℕ × L))
    (h : SwapLocations.searchTemporal tdist sdist k remaining chosen spatial_range ts
      = some u) :
    k - 1 ≤ u.length ∧ ∃ r_t r_s, u = SwapLocations.firstPerTrajectory
      (SwapLocations.clusterCandidates tdist sdist remaining chosen r_t r_s) [] := by
  induction ts with
  | nil => simp [SwapLocations.searchTemporal] at h
  | cons r_t rest ih =>
    rw [SwapLocations.searchTemporal] at h
    split at h
    · rename_i u' hs
      cases h
      obtain ⟨hlen, r_s, hu⟩ := searchSpatial_some tdist sdist k remaining chosen r_t _ _ hs
      exact ⟨hlen, r_t, r_s, hu⟩
    · exact ih h

/-- Everything `__build_cluster` guarantees about a returned (non-`None`)
cluster: at least `k - 1` members, every member drawn from the remaining
pool and from a trajectory other than the anchor's, and no two members from
the same trajectory. -/
theorem build_cluster_some_props {L : Type} (tdist sdist : L → L → ℚ)
    (cfg : SwapConfig) (remaining : List (ℕ × L)) (chosen : ℕ × L)
    (u : List (ℕ × L))
    (h : SwapLocations.build_cluster tdist sdist cfg remaining chosen = .ok (some u)) :
    cfg.k - 1 ≤ u.length ∧ (∀ x ∈ u, x ∈ remaining ∧ x.1 ≠ chosen.1) ∧
      (u.map Prod.fst).Nodup := by
  rw [SwapLocations.build_cluster] at h
  cases hst : cfg.step_t with
  | none => rw [hst] at h; cases hss : cfg.step_s <;> rw [hss] at h <;> cases h
  | some st =>
    cases hss : cfg.step_s with
    | none => rw [hst, hss] at h; cases h
    | some ss =>
      rw [hst, hss] at h
      simp only [Except.ok.injEq] at h
      obtain ⟨hlen, r_t, r_s, hu⟩ := searchTemporal_some tdist sdist cfg.k remaining chosen _ _ u h
      refine ⟨hlen, ?_, ?_⟩
      · intro x hx
        have hx' := firstPerTrajectory_mem _ _ _ (hu ▸ hx)
        exact clusterCandidates_mem tdist sdist remaining chosen r_t r_s x hx'
      · exact hu ▸ (firstPerTrajectory_nodup _ _).1

/-! ### Claim theorems -/

/-- C9 (code_bug): on `[10, 20, 30, 40]` with target `25` the
"after strictly closer else before" rule gives index 1 (value 20), and the
equal-distance case `[20, 30]` vs `25` resolves to the earlier index 0 —
but `__take_closest` does not always return "the index of the element
closest to the target" as its docstring promises: on `[10, 20]` with
target `100` it returns the insertion point `2`, one past the last valid
index (the closest element sits at index 1). -/
theorem take_closest_boundary_bug :
    Stats.take_closest [10, 20, 30, 40] 25 = 1 ∧
    Stats.take_closest [20, 30] 25 = 0 ∧
    Stats.take_closest [10, 20] 100 = 2 ∧ ([10, 20] : List ℚ).length = 2 := by
  refine ⟨?_, ?_, by rfl, rfl⟩ <;>
    norm_num [Stats.take_closest, Stats.bisect_left, List.takeWhile]

/-- C3: every cluster `__build_cluster` returns (not `None`) holds at least
`k - 1` locations, none of them from the anchor's own trajectory, and no
two of them from the same trajectory. -/
theorem build_cluster_invariants {L : Type} (tdist sdist : L → L → ℚ)
    (cfg : SwapConfig) (remaining : List (ℕ × L)) (chosen : ℕ × L)
    (u : List (ℕ × L))
    (h : SwapLocations.build_cluster tdist sdist cfg remaining chosen = .ok (some u)) :
    cfg.k - 1 ≤ u.length ∧ (∀ x ∈ u, x.1 ≠ chosen.1) ∧ (u.map Prod.fst).Nodup := by
  obtain ⟨hlen, hmem, hnd⟩ := build_cluster_some_props tdist sdist cfg remaining chosen u h
  exact ⟨hlen, fun x hx => (hmem x hx).2, hnd⟩

/-- C3 witness: a concrete two-trajectory pool in which the anchor `(0, 5)`
gets the cluster `[(1, 5)]`. -/
theorem build_cluster_invariants_witness :
    SwapLocations.build_cluster Ex.td Ex.sd Ex.cfg [(0, 5), (1, 5)] (0, 5)
        = .ok (some [(1, 5)]) ∧
      Ex.cfg.k - 1 ≤ ([((1 : ℕ), (5 : ℤ))]).length ∧
      (∀ x ∈ [((1 : ℕ), (5 : ℤ))], x.1 ≠ (0, (5 : ℤ)).1) ∧
      (([((1 : ℕ), (5 : ℤ))]).map Prod.fst).Nodup :=
  ⟨by rfl, build_cluster_invariants Ex.td Ex.sd Ex.cfg [(0, 5), (1, 5)] (0, 5)
    [(1, 5)] (by rfl)⟩

/-! ### Lemmas about the swap loop -/

theorem build_cluster_error {L : Type} (tdist sdist : L → L → ℚ) (cfg : SwapConfig)
    (remaining : List (ℕ × L)) (chosen : ℕ × L)
    (h : cfg.step_t = none ∨ cfg.step_s = none) :
    SwapLocations.build_cluster tdist sdist cfg remaining chosen = .error () := by
  cases hst : cfg.step_t with
  | none =>
    cases hss : cfg.step_s <;> rw [SwapLocations.build_cluster, hst, hss]
  | some st =>
    cases hss : cfg.step_s with
    | none => rw [SwapLocations.build_cluster, hst, hss]
    | some ss => rcases h with h | h <;> simp_all

/-- If the cluster search returns `None` and `k ≥ 2`, the iteration assigns
nothing: the anonymized dataset is unchanged and only the anchor leaves the
pool. -/
theorem swapIteration_none {L : Type} [DecidableEq L] (tdist sdist : L → L → ℚ)
    (cfg : SwapConfig) (shuf : List (ℕ × L) → List (ℕ × L))
    (remaining : List (ℕ × L)) (chosen : ℕ × L) (anon : List (ℕ × List L))
    (hnone : SwapLocations.build_cluster tdist sdist cfg remaining chosen = .ok none)
    (hk : 2 ≤ cfg.k) :
    SwapLocations.swapIteration tdist sdist cfg shuf remaining chosen anon
      = .ok (remaining.erase chosen, anon) := by
  simp only [SwapLocations.swapIteration, hnone, Option.getD_none,
    List.foldl_cons, List.foldl_nil]
  rw [if_neg (by simp only [List.length_cons, List.length_nil]; omega)]

/-- If the cluster search returns a cluster, the iteration takes the swap
branch: the assignment pairs are applied and all of `U` leaves the pool. -/
theorem swapIteration_some {L : Type} [DecidableEq L] (tdist sdist : L → L → ℚ)
    (cfg : SwapConfig) (shuf : List (ℕ × L) → List (ℕ × L))
    (remaining : List (ℕ × L)) (chosen : ℕ × L) (anon : List (ℕ × List L))
    (u : List (ℕ × L))
    (hsome : SwapLocations.build_cluster tdist sdist cfg remaining chosen = .ok (some u)) :
    SwapLocations.swapIteration tdist sdist cfg shuf remaining chosen anon
      = .ok ((chosen :: u).foldl (fun r l => r.erase l) remaining,
          (SwapLocations.assignedPairs (chosen :: u) (shuf (chosen :: u))).foldl
            (fun a p => SwapLocations.add_location a p.1 p.2) anon) := by
  have hlen := (build_cluster_some_props tdist sdist cfg remaining chosen u hsome).1
  simp only [SwapLocations.swapIteration, hsome, Option.getD_some]
  rw [if_pos (by simp only [List.length_cons]; omega)]

theorem swapLoop_error_head {L : Type} [DecidableEq L] (tdist sdist : L → L → ℚ)
    (cfg : SwapConfig) (pick : List (ℕ × L) → ℕ) (shuf : List (ℕ × L) → List (ℕ × L))
    (fuel : ℕ) (x : ℕ × L) (rest : List (ℕ × L)) (anon : List (ℕ × List L))
    (hbc : ∀ chosen, SwapLocations.build_cluster tdist sdist cfg (x :: rest) chosen
      = .error ()) :
    SwapLocations.swapLoop tdist sdist cfg pick shuf (fuel + 1) (x :: rest) anon
      = .error () := by
  rw [SwapLocations.swapLoop]
  simp only [SwapLocations.swapIteration, hbc]

/-! ### C1, C7, C8, C10 -/

/-- C1 (counterexample): `k = 2` and the anchor `(0, 5)` is alone in the
pool, so `__build_cluster` returns `None`; contrary to the claim the anchor
is not assigned back to its own trajectory — the iteration leaves the
anonymized trajectory `0` without any location and merely removes the
anchor from the pool. -/
theorem swap_noop_assigns_nothing_cex :
    SwapLocations.build_cluster Ex.td Ex.sd Ex.cfg [((0 : ℕ), (5 : ℤ))] (0, 5)
        = .ok none ∧
      2 ≤ Ex.cfg.k ∧
      SwapLocations.swapIteration Ex.td Ex.sd Ex.cfg id [((0 : ℕ), (5 : ℤ))] (0, 5)
        [(0, [])] = .ok ([], [(0, [])]) :=
  ⟨by rfl, by decide, by rfl⟩

/-- C1 (amended): whenever `__build_cluster` finds no qualifying cluster
for the anchor and `k > 1`, the anchor is not assigned to any trajectory;
the iteration leaves the anonymized dataset unchanged and removes exactly
the anchor from the pool. -/
theorem swap_noop_iteration {L : Type} [DecidableEq L] (tdist sdist : L → L → ℚ)
    (cfg : SwapConfig) (shuf : List (ℕ × L) → List (ℕ × L))
    (remaining : List (ℕ × L)) (chosen : ℕ × L) (anon : List (ℕ × List L))
    (hnone : SwapLocations.build_cluster tdist sdist cfg remaining chosen = .ok none)
    (hk : 1 < cfg.k) :
    SwapLocations.swapIteration tdist sdist cfg shuf remaining chosen anon
      = .ok (remaining.erase chosen, anon) :=
  swapIteration_none tdist sdist cfg shuf remaining chosen anon hnone hk

/-- C1 witness: the no-cluster iteration at a concrete anchor. -/
theorem swap_noop_iteration_witness :
    SwapLocations.build_cluster Ex.td Ex.sd Ex.cfg [((0 : ℕ), (5 : ℤ)), (0, 90)] (0, 5)
        = .ok none ∧
      1 < Ex.cfg.k ∧
      SwapLocations.swapIteration Ex.td Ex.sd Ex.cfg id [((0 : ℕ), (5 : ℤ)), (0, 90)]
        (0, 5) [(0, [])] = .ok ([(0, 90)], [(0, [])]) :=
  ⟨by rfl, by decide,
    swap_noop_iteration Ex.td Ex.sd Ex.cfg id [(0, 5), (0, 90)] (0, 5) [(0, [])]
      (by rfl) (by decide)⟩

/-- C8: when a qualifying cluster `U = anchor :: u` is found, `run`
performs exactly the positional assignment `zip trajectories_id
(shuffled locations)`: the assigned trajectory ids are exactly the cluster
members' ids (each id once — they are pairwise distinct), and the assigned
locations are a permutation of the cluster's locations.  No pair targets a
trajectory outside the cluster. -/
theorem swap_cluster_bijection {L : Type} [DecidableEq L] (tdist sdist : L → L → ℚ)
    (cfg : SwapConfig) (shuf : List (ℕ × L) → List (ℕ × L))
    (remaining : List (ℕ × L)) (chosen : ℕ × L) (anon : List (ℕ × List L))
    (u : List (ℕ × L))
    (hsome : SwapLocations.build_cluster tdist sdist cfg remaining chosen = .ok (some u))
    (hshuf : (shuf (chosen :: u)).Perm (chosen :: u)) :
    cfg.k ≤ (chosen :: u).length ∧
    SwapLocations.swapIteration tdist sdist cfg shuf remaining chosen anon
      = .ok ((chosen :: u).foldl (fun r l => r.erase l) remaining,
          (SwapLocations.assignedPairs (chosen :: u) (shuf (chosen :: u))).foldl
            (fun a p => SwapLocations.add_location a p.1 p.2) anon) ∧
    (SwapLocations.assignedPairs (chosen :: u) (shuf (chosen :: u))).map Prod.fst
      = (chosen :: u).map Prod.fst ∧
    ((chosen :: u).map Prod.fst).Nodup ∧
    ((SwapLocations.assignedPairs (chosen :: u) (shuf (chosen :: u))).map Prod.snd).Perm
      ((chosen :: u).map Prod.snd) := by
  obtain ⟨hlen, hmem, hnd⟩ := build_cluster_some_props tdist sdist cfg remaining chosen u hsome
  have hlens : (shuf (chosen :: u)).length = (chosen :: u).length := hshuf.length_eq
  refine ⟨?_, swapIteration_some tdist sdist cfg shuf remaining chosen anon u hsome, ?_, ?_, ?_⟩
  · simp only [List.length_cons]
    omega
  · rw [SwapLocations.assignedPairs, List.map_fst_zip]
    simp [hlens]
  · simp only [List.map_cons, List.nodup_cons]
    refine ⟨?_, hnd⟩
    intro hc
    rcases List.mem_map.mp hc with ⟨x, hx, hx1⟩
    exact (hmem x hx).2 hx1
  · rw [SwapLocations.assignedPairs, List.map_snd_zip]
    · exact hshuf.map Prod.snd
    · simp [hlens]

/-- C8 witness: a concrete two-member cluster with the identity shuffle. -/
theorem swap_cluster_bijection_witness :
    SwapLocations.build_cluster Ex.td Ex.sd Ex.cfg [(0, 5), (1, 5)] (0, 5)
        = .ok (some [(1, 5)]) ∧
      (Ex.cfg.k ≤ ([((0 : ℕ), (5 : ℤ)), (1, 5)]).length ∧
      SwapLocations.swapIteration Ex.td Ex.sd Ex.cfg id [(0, 5), (1, 5)] (0, 5)
        [(0, []), (1, [])]
        = .ok (([((0 : ℕ), (5 : ℤ)), (1, 5)]).foldl (fun r l => r.erase l) [(0, 5), (1, 5)],
            (SwapLocations.assignedPairs [((0 : ℕ), (5 : ℤ)), (1, 5)]
              (id [((0 : ℕ), (5 : ℤ)), (1, 5)])).foldl
              (fun a p => SwapLocations.add_location a p.1 p.2) [(0, []), (1, [])]) ∧
      (SwapLocations.assignedPairs [((0 : ℕ), (5 : ℤ)), (1, 5)]
          (id [((0 : ℕ), (5 : ℤ)), (1, 5)])).map Prod.fst
        = ([((0 : ℕ), (5 : ℤ)), (1, 5)]).map Prod.fst ∧
      (([((0 : ℕ), (5 : ℤ)), (1, 5)]).map Prod.fst).Nodup ∧
      ((SwapLocations.assignedPairs [((0 : ℕ), (5 : ℤ)), (1, 5)]
          (id [((0 : ℕ), (5 : ℤ)), (1, 5)])).map Prod.snd).Perm
        (([((0 : ℕ), (5 : ℤ)), (1, 5)]).map Prod.snd)) :=
  ⟨by rfl, swap_cluster_bijection Ex.td Ex.sd Ex.cfg id [(0, 5), (1, 5)] (0, 5)
    [(0, []), (1, [])] [(1, 5)] (by rfl) (List.Perm.refl _)⟩

/-- C7: whatever swaps happened, a successful `run` ends by dropping every
anonymized trajectory with fewer than two locations and sorting the rest by
trajectory id. -/
theorem swap_run_filter_sorted {L : Type} [DecidableEq L] (tdist sdist : L → L → ℚ)
    (cfg : SwapConfig) (pick : List (ℕ × L) → ℕ) (shuf : List (ℕ × L) → List (ℕ × L))
    (dataset : List (ℕ × List L)) (out : List (ℕ × List L))
    (h : SwapLocations.run tdist sdist cfg pick shuf dataset = .ok out) :
    (∀ t ∈ out, 1 < t.2.length) ∧ out.Pairwise (fun a b => a.1 ≤ b.1) := by
  rw [SwapLocations.run] at h
  cases hsl : SwapLocations.swapLoop tdist sdist cfg pick shuf
      ((dataset.map fun t => t.2.map fun l => (t.1, l)).flatten).length
      ((dataset.map fun t => t.2.map fun l => (t.1, l)).flatten)
      (dataset.map fun t => (t.1, ([] : List L))) with
  | error e => rw [hsl] at h; cases h
  | ok anon =>
    rw [hsl] at h
    have hout : out = sortByKey (fun t : ℕ × List L => t.1)
        (anon.filter fun t => decide (1 < t.2.length)) := by
      cases h
      rfl
    subst hout
    constructor
    · intro t ht
      have ht' := (sortByKey_perm (fun t : ℕ × List L => t.1) _).mem_iff.mp ht
      exact of_decide_eq_true (List.mem_filter.mp ht').2
    · exact sortByKey_pairwise (fun t : ℕ × List L => t.1) _

/-- C7 witness: a concrete run in which both anonymized trajectories keep
two locations. -/
theorem swap_run_filter_sorted_witness :
    SwapLocations.run Ex.td Ex.sd Ex.cfg Ex.pickFirst id [(0, [5, 5]), (1, [5, 5])]
        = .ok [(0, [5, 5]), (1, [5, 5])] ∧
      ((∀ t ∈ [((0 : ℕ), [(5 : ℤ), 5]), (1, [5, 5])], 1 < t.2.length) ∧
        ([((0 : ℕ), [(5 : ℤ), 5]), (1, [5, 5])]).Pairwise (fun a b => a.1 ≤ b.1)) :=
  ⟨by rfl, swap_run_filter_sorted Ex.td Ex.sd Ex.cfg Ex.pickFirst id
    [(0, [5, 5]), (1, [5, 5])] [(0, [5, 5]), (1, [5, 5])] (by rfl)⟩

/-- C10 (counterexample): with a truthy `step_s` the attribute is indeed
never assigned, but a call to `run` on a dataset contributing no location
to the pool succeeds (the loop body, and with it `__build_cluster`, is
never entered), so "every subsequent call to run fails" does not hold. -/
theorem swap_step_truthy_empty_run_cex :
    Ex.cfgSteps.step_s = none ∧
      SwapLocations.run Ex.td Ex.sd Ex.cfgSteps Ex.pickFirst id [] = .ok [] :=
  ⟨by rfl, by rfl⟩

/-- C10 (amended): a truthy `step_s` (resp. `step_t`) argument is discarded
and the attribute never assigned, and every call to `run` on a dataset
contributing at least one location to the pool fails with the attribute
error raised inside `__build_cluster`. -/
theorem swap_step_truthy_attribute_error {L : Type} [DecidableEq L]
    (k : ℕ) (max_r_s max_r_t min_r_s min_r_t : ℤ) (step_s step_t : Option ℤ)
    (tdist sdist : L → L → ℚ) (pick : List (ℕ × L) → ℕ)
    (shuf : List (ℕ × L) → List (ℕ × L)) (dataset : List (ℕ × List L))
    (hstep : pyTruthy step_s = true ∨ pyTruthy step_t = true)
    (hpool : (dataset.map fun t => t.2.map fun l => (t.1, l)).flatten ≠ []) :
    (pyTruthy step_s = true →
      (SwapLocations.init k max_r_s max_r_t min_r_s min_r_t step_s step_t).step_s = none) ∧
    (pyTruthy step_t = true →
      (SwapLocations.init k max_r_s max_r_t min_r_s min_r_t step_s step_t).step_t = none) ∧
    SwapLocations.run tdist sdist
      (SwapLocations.init k max_r_s max_r_t min_r_s min_r_t step_s step_t)
      pick shuf dataset = .error () := by
  refine ⟨fun hs => by simp [SwapLocations.init, hs], fun ht => by simp [SwapLocations.init, ht], ?_⟩
  have hcfg : (SwapLocations.init k max_r_s max_r_t min_r_s min_r_t step_s step_t).step_t = none
      ∨ (SwapLocations.init k max_r_s max_r_t min_r_s min_r_t step_s step_t).step_s = none := by
    rcases hstep with hs | ht
    · exact Or.inr (by simp [SwapLocations.init, hs])
    · exact Or.inl (by simp [SwapLocations.init, ht])
  rw [SwapLocations.run]
  cases hp : (dataset.map fun t => t.2.map fun l => (t.1, l)).flatten with
  | nil => exact absurd hp hpool
  | cons x rest =>
    simp only [List.length_cons]
    rw [swapLoop_error_head tdist sdist _ pick shuf rest.length x rest _
      (fun chosen => build_cluster_error tdist sdist _ (x :: rest) chosen hcfg)]

/-- C10 witness: `step_s = 200` is truthy and a single-location dataset
makes `run` fail with the attribute error. -/
theorem swap_step_truthy_attribute_error_witness :
    (pyTruthy (some 200) = true ∨ pyTruthy (none : Option ℤ) = true) ∧
      (([((0 : ℕ), [(3 : ℤ)])].map fun t => t.2.map fun l => (t.1, l)).flatten ≠ []) ∧
      ((pyTruthy (some 200) = true →
        (SwapLocations.init 3 500 120 100 60 (some 200) none).step_s = none) ∧
      (pyTruthy (none : Option ℤ) = true →
        (SwapLocations.init 3 500 120 100 60 (some 200) none).step_t = none) ∧
      SwapLocations.run Ex.td Ex.sd
        (SwapLocations.init 3 500 120 100 60 (some 200) none)
        Ex.pickFirst id [(0, [3])] = .error ()) :=
  ⟨Or.inl (by rfl), by decide,
    swap_step_truthy_attribute_error 3 500 120 100 60 (some 200) none Ex.td Ex.sd
      Ex.pickFirst id [(0, [3])] (Or.inl (by rfl)) (by decide)⟩

/-! ### Lemmas about the time partitioner -/

theorem timeWalk_append {α : Type} (f : α → ℤ) (final_t : ℤ) :
    ∀ l : List α, (TimePartMicroaggregation.timeWalk f final_t l).1 ++
      (TimePartMicroaggregation.timeWalk f final_t l).2 = l
  | [] => rfl
  | [_] => rfl
  | x :: y :: rest => by
    rw [TimePartMicroaggregation.timeWalk]
    by_cases h : f x ≤ final_t
    · rw [if_pos h]
      simpa using timeWalk_append f final_t (y :: rest)
    · rw [if_neg h]
      rfl

theorem fillK_append {α : Type} (k : ℕ) (p r : List α) :
    (TimePartMicroaggregation.fillK k (p, r)).1 ++
      (TimePartMicroaggregation.fillK k (p, r)).2 = p ++ r := by
  rw [TimePartMicroaggregation.fillK]
  split
  · rw [List.append_assoc, List.take_append_drop]
  · rfl

theorem fillK_length {α : Type} (k : ℕ) (p r : List α) (h : k ≤ p.length + r.length) :
    k ≤ (TimePartMicroaggregation.fillK k (p, r)).1.length := by
  rw [TimePartMicroaggregation.fillK]
  split
  · rename_i hlt
    simp only [List.length_append, List.length_take]
    omega
  · rename_i hge
    exact Nat.le_of_not_lt hge

theorem partitionLoop_spec {α : Type} (k : ℕ) (interval : ℤ) (f : α → ℤ) (hk : 1 ≤ k) :
    ∀ (fuel : ℕ) (ordered : List α), ordered.length ≤ fuel →
      ((TimePartMicroaggregation.partitionLoop k interval f fuel ordered).1.flatten ++
        (TimePartMicroaggregation.partitionLoop k interval f fuel ordered).2 = ordered) ∧
      ∀ b ∈ (TimePartMicroaggregation.partitionLoop k interval f fuel ordered).1,
        k ≤ b.length
  | 0, ordered, h => by
    have hnil : ordered = [] := List.eq_nil_of_length_eq_zero (Nat.le_zero.mp h)
    subst hnil
    simp [TimePartMicroaggregation.partitionLoop]
  | fuel + 1, ordered, h => by
    match ordered, h with
    | [], _ => simp [TimePartMicroaggregation.partitionLoop]
    | x :: tail, h =>
      rw [TimePartMicroaggregation.partitionLoop]
      split
      · simp
      · rename_i hge
        have htw := timeWalk_append f (f x + interval) (x :: tail)
        have hfa := fillK_append k (TimePartMicroaggregation.timeWalk f (f x + interval)
          (x :: tail)).1 (TimePartMicroaggregation.timeWalk f (f x + interval) (x :: tail)).2
        have hfl : k ≤ (TimePartMicroaggregation.fillK k
            (TimePartMicroaggregation.timeWalk f (f x + interval) (x :: tail))).1.length := by
          apply fillK_length
          have := congrArg List.length htw
          simp only [List.length_append] at this
          omega
        have happ : (TimePartMicroaggregation.fillK k
            (TimePartMicroaggregation.timeWalk f (f x + interval) (x :: tail))).1 ++
            (TimePartMicroaggregation.fillK k
            (TimePartMicroaggregation.timeWalk f (f x + interval) (x :: tail))).2
            = x :: tail := hfa.trans htw
        have hlen2 : (TimePartMicroaggregation.fillK k
            (TimePartMicroaggregation.timeWalk f (f x + interval) (x :: tail))).2.length
            ≤ fuel := by
          have := congrArg List.length happ
          simp only [List.length_append, List.length_cons] at this
          simp only [List.length_cons] at h
          omega
        have ih := partitionLoop_spec k interval f hk fuel _ hlen2
        constructor
        · simp only [List.flatten_cons, List.append_assoc]
          rw [ih.1, happ]
        · intro b hb
          rcases List.mem_cons.mp hb with hb | hb
          · exact hb ▸ hfl
          · exact ih.2 b hb

theorem partitionLoop_ne_nil {α : Type} (k : ℕ) (interval : ℤ) (f : α → ℤ)
    (fuel : ℕ) (ordered : List α) (hk : 1 ≤ k) (hlen : k ≤ ordered.length)
    (hfuel : 1 ≤ fuel) :
    (TimePartMicroaggregation.partitionLoop k interval f fuel ordered).1 ≠ [] := by
  cases fuel with
  | zero => omega
  | succ n =>
    match ordered, hlen with
    | [], hlen => simp at hlen; omega
    | x :: tail, hlen =>
      rw [TimePartMicroaggregation.partitionLoop]
      split
      · rename_i hlt
        exact absurd hlt (by omega)
      · simp

theorem appendToLast_flatten {α : Type} (rest : List α) :
    ∀ bs : List (List α), bs ≠ [] →
      (TimePartMicroaggregation.appendToLast bs rest).flatten = bs.flatten ++ rest
  | [], h => absurd rfl h
  | [b], _ => by simp [TimePartMicroaggregation.appendToLast]
  | b :: b2 :: bs, _ => by
    rw [TimePartMicroaggregation.appendToLast]
    simp only [List.flatten_cons]
    rw [appendToLast_flatten rest (b2 :: bs) (by simp)]
    simp [List.append_assoc]

theorem appendToLast_length {α : Type} (k : ℕ) (rest : List α) :
    ∀ bs : List (List α), (∀ b ∈ bs, k ≤ b.length) →
      ∀ b ∈ TimePartMicroaggregation.appendToLast bs rest, k ≤ b.length
  | [], _, b, hb => by simp [TimePartMicroaggregation.appendToLast] at hb
  | [b0], hbs, b, hb => by
    rw [TimePartMicroaggregation.appendToLast] at hb
    rcases List.mem_cons.mp hb with hb | hb
    · subst hb
      have := hbs b0 (by simp)
      simp only [List.length_append]
      omega
    · simp at hb
  | b0 :: b1 :: bs, hbs, b, hb => by
    rw [TimePartMicroaggregation.appendToLast] at hb
    rcases List.mem_cons.mp hb with hb | hb
    · exact hb ▸ hbs b0 (by simp)
    · exact appendToLast_length k rest (b1 :: bs)
        (fun b' hb' => hbs b' (List.mem_cons_of_mem _ hb')) b hb

/-! ### C2 and C4 -/

/-- C2: for `k ≥ 1` and at least `k` input trajectories, every batch of the
time partition has at least `k` trajectories (the trailing remainder is
merged into the last completed batch), and the concatenation of the batches
is a permutation of the input — every trajectory in exactly one batch. -/
theorem time_partition_batches {α : Type} (k : ℕ) (interval : ℤ) (f : α → ℤ)
    (input : List α) (hk : 1 ≤ k) (hlen : k ≤ input.length) :
    (∀ b ∈ TimePartMicroaggregation.timePartition k interval f input, k ≤ b.length) ∧
      (TimePartMicroaggregation.timePartition k interval f input).flatten.Perm input := by
  have hol : (sortByKey f input).length = input.length :=
    (sortByKey_perm f input).length_eq
  have hspec := partitionLoop_spec k interval f hk (sortByKey f input).length
    (sortByKey f input) le_rfl
  have hne : (TimePartMicroaggregation.partitionLoop k interval f
      (sortByKey f input).length (sortByKey f input)).1 ≠ [] :=
    partitionLoop_ne_nil k interval f _ _ hk (by omega) (by omega)
  rw [TimePartMicroaggregation.timePartition]
  constructor
  · exact appendToLast_length k _ _ hspec.2
  · rw [appendToLast_flatten _ _ hne, hspec.1]
    exact sortByKey_perm f input

/-- C2 witness: `k = 2`, interval `10`, four timestamps in two bursts. -/
theorem time_partition_batches_witness :
    (1 ≤ 2 ∧ 2 ≤ ([(0 : ℤ), 1, 100, 101]).length) ∧
      ((∀ b ∈ TimePartMicroaggregation.timePartition 2 10 (fun x : ℤ => x)
          [0, 1, 100, 101], 2 ≤ b.length) ∧
        (TimePartMicroaggregation.timePartition 2 10 (fun x : ℤ => x)
          [0, 1, 100, 101]).flatten.Perm [0, 1, 100, 101]) :=
  ⟨⟨by decide, by decide⟩,
    time_partition_batches 2 10 (fun x : ℤ => x) [0, 1, 100, 101] (by decide) (by decide)⟩

theorem foldl_append_singleton {α β : Type} (g : α → β) :
    ∀ (ts : List α) (ds : List β), ts.foldl (fun d T => d ++ [g T]) ds = ds ++ ts.map g
  | [], ds => by simp
  | t :: ts, ds => by
    rw [List.foldl_cons, foldl_append_singleton g ts (ds ++ [g t])]
    simp

theorem process_clusters_eq {L : Type} (agg : List (ATraj L) → ATraj L) :
    ∀ (clusters : List (List (ATraj L))) (ds : List (ATraj L)),
      TimePartMicroaggregation.process_clusters agg clusters ds =
        ds ++ (clusters.map fun c => c.map fun t =>
          ATraj.mk t.id t.user_id (agg c).locs).flatten
  | [], ds => by simp [TimePartMicroaggregation.process_clusters]
  | c :: cs, ds => by
    have hstep : TimePartMicroaggregation.process_clusters agg (c :: cs) ds =
        TimePartMicroaggregation.process_clusters agg cs
          ((c.map fun t => ATraj.mk t.id t.user_id []).foldl
            (fun ds2 T => ds2 ++ [{ T with locs := T.locs ++ (agg c).locs }]) ds) := by
      simp only [TimePartMicroaggregation.process_clusters, List.foldl_cons]
    rw [hstep, process_clusters_eq agg cs, foldl_append_singleton, List.map_map]
    simp only [List.flatten_cons, List.append_assoc]
    rfl

/-- C4: `process_clusters` turns each cluster member into exactly one
anonymized trajectory with the member's id and user id and the aggregate's
location sequence (one shared sequence per cluster), appending them to the
anonymized dataset; and `run` finally sorts the anonymized dataset by
trajectory id. -/
theorem process_clusters_characterization {L : Type}
    (agg : List (ATraj L) → ATraj L) (clusters : List (List (ATraj L)))
    (ds : List (ATraj L)) (k : ℕ) (interval : ℤ) (ts : L → ℤ)
    (clus : List (ATraj L) → List (List (ATraj L))) (dataset : List (ATraj L)) :
    TimePartMicroaggregation.process_clusters agg clusters ds =
      ds ++ (clusters.map fun c => c.map fun t =>
        ATraj.mk t.id t.user_id (agg c).locs).flatten ∧
    (TimePartMicroaggregation.run k interval ts clus agg dataset).Pairwise
      (fun a b => a.id ≤ b.id) := by
  refine ⟨process_clusters_eq agg clusters ds, ?_⟩
  rw [TimePartMicroaggregation.run]
  exact sortByKey_pairwise (fun t : ATraj L => t.id) _

/-! ### Lemmas about the record-linkage estimators -/

theorem option_bind_none_fun {α β : Type} (o : Option α) :
    (o.bind fun _ => (none : Option β)) = none := by
  cases o <;> rfl

theorem foldl_bind_none {α : Type} (g : α → ℚ → Option ℚ) :
    ∀ l : List α, l.foldl (fun acc a => acc.bind (g a)) none = none
  | [] => rfl
  | a :: l => by
    rw [List.foldl_cons, Option.none_bind]
    exact foldl_bind_none g l

theorem foldl_bind_isSome {α : Type} (g : α → ℚ → Option ℚ)
    (hg : ∀ a tp, (g a tp).isSome) :
    ∀ (l : List α) (v : ℚ), (l.foldl (fun acc a => acc.bind (g a)) (some v)).isSome
  | [], _ => rfl
  | a :: l, v => by
    rw [List.foldl_cons, Option.some_bind]
    obtain ⟨w, hw⟩ := Option.isSome_iff_exists.mp (hg a v)
    rw [hw]
    exact foldl_bind_isSome g hg l w

theorem get_record_linkage_isSome (d : RTraj → RTraj → ℚ) (o : RTraj)
    (os anons : List RTraj) :
    (Stats.get_record_linkage d (o :: os) anons).isSome := by
  simp only [Stats.get_record_linkage]
  have hg : ∀ (a : RTraj) (tp : ℚ),
      (match firstMin (fun traj_ori => d traj_ori a) (o :: os) with
        | none => none
        | some min_traj => some (tp + Stats.credit (Stats.build_control (o :: os))
            (Stats.build_ids (o :: os)) a min_traj)).isSome := by
    intro a tp
    rw [firstMin]
    rfl
  obtain ⟨w, hw⟩ := Option.isSome_iff_exists.mp (foldl_bind_isSome _ hg anons 0)
  rw [hw, Option.some_bind, if_neg (by simp)]
  rfl

theorem get_record_linkage_none_iff (d : RTraj → RTraj → ℚ) (origs anons : List RTraj) :
    Stats.get_record_linkage d origs anons = none ↔ origs = [] := by
  cases origs with
  | nil =>
    simp only [iff_true]
    cases anons with
    | nil => simp [Stats.get_record_linkage]
    | cons a rest =>
      simp only [Stats.get_record_linkage, List.foldl_cons, Option.some_bind, firstMin]
      rw [foldl_bind_none]
      rfl
  | cons o os =>
    constructor
    · intro hnone
      have hsome := get_record_linkage_isSome d o os anons
      rw [hnone] at hsome
      simp at hsome
    · intro h
      cases h

theorem get_record_linkage_empty_anons (d : RTraj → RTraj → ℚ) (o : RTraj)
    (os : List RTraj) :
    Stats.get_record_linkage d (o :: os) [] = some 0 := by
  simp only [Stats.get_record_linkage, List.foldl_nil, Option.some_bind, List.length_cons]
  rw [if_neg (by omega)]
  norm_num

theorem get_fast_record_linkage_empty_anons (d : RTraj → RTraj → ℚ) (dtr : RTraj → ℚ)
    (o : RTraj) (os : List RTraj) (ws : ℕ) :
    Stats.get_fast_record_linkage d dtr (o :: os) [] ws = some 0 := by
  simp only [Stats.get_fast_record_linkage, List.foldl_nil, Option.some_bind,
    List.length_cons]
  rw [if_neg (by omega)]
  norm_num

theorem get_fast_record_linkage_empty_origs (d : RTraj → RTraj → ℚ) (dtr : RTraj → ℚ)
    (anons : List RTraj) (ws : ℕ) :
    Stats.get_fast_record_linkage d dtr [] anons ws = none := by
  have h : ∀ o : Option ℚ, (o.bind fun tp =>
      if ([] : List RTraj).length = 0 then none
      else some (tp / (([] : List RTraj).length : ℚ) * 100)) = none := by
    intro o
    cases o <;> rfl
  simp only [Stats.get_fast_record_linkage]
  exact h _

/-! ### C6 -/

/-- C6 (counterexample): an empty anonymized dataset with a nonempty
original dataset is not fatal — `get_record_linkage` divides by
`len(original)` and returns the score `0`. -/
theorem record_linkage_empty_anonymized_cex :
    Stats.get_record_linkage Ex.dzero [Ex.wT] [] = some 0 :=
  get_record_linkage_empty_anons Ex.dzero Ex.wT []

/-- C6 (amended): `get_record_linkage` fails (modelled `none`: `KeyError`
on `ids[None]` or `ZeroDivisionError`) exactly when the original dataset is
empty, and `get_fast_record_linkage` likewise fails on an empty original
dataset; an empty anonymized dataset with a nonempty original returns the
score `0` from both estimators. -/
theorem record_linkage_empty_original_fatal (d : RTraj → RTraj → ℚ) (dtr : RTraj → ℚ)
    (origs anons : List RTraj) (ws : ℕ) :
    (Stats.get_record_linkage d origs anons = none ↔ origs = []) ∧
    (origs = [] → Stats.get_fast_record_linkage d dtr origs anons ws = none) ∧
    (origs ≠ [] → Stats.get_record_linkage d origs [] = some 0 ∧
      Stats.get_fast_record_linkage d dtr origs [] ws = some 0) := by
  refine ⟨get_record_linkage_none_iff d origs anons, ?_, ?_⟩
  · rintro rfl
    exact get_fast_record_linkage_empty_origs d dtr anons ws
  · intro h
    match origs, h with
    | o :: os, _ =>
      exact ⟨get_record_linkage_empty_anons d o os,
        get_fast_record_linkage_empty_anons d dtr o os ws⟩

/-- C6 witness: one original trajectory, empty anonymized dataset. -/
theorem record_linkage_empty_original_fatal_witness :
    [Ex.wT] ≠ ([] : List RTraj) ∧
      Stats.get_record_linkage Ex.dzero [Ex.wT] [] = some 0 ∧
      Stats.get_fast_record_linkage Ex.dzero Ex.drefzero [Ex.wT] [] 1 = some 0 :=
  ⟨by decide,
    (record_linkage_empty_original_fatal Ex.dzero Ex.drefzero [Ex.wT] [] 1).2.2 (by decide)⟩

/-! ### Lemmas about the window selection -/

theorem bisect_left_le (l : List ℚ) (x : ℚ) : Stats.bisect_left l x ≤ l.length :=
  (List.takeWhile_sublist (l := l) _).length_le

theorem take_closest_le (l : List ℚ) (x : ℚ) : Stats.take_closest l x ≤ l.length := by
  have h := bisect_left_le l x
  simp only [Stats.take_closest]
  split_ifs <;> omega

theorem intRange_congr (a b c d : ℤ) (h1 : a = c) (h2 : b = d) :
    intRange a b = intRange c d := by
  rw [h1, h2]

/-- With `window_size` equal to the list length, the clamp-and-compensate
arithmetic of `__take_closest_window` always produces exactly the full
index range `[0, ..., len - 1]`. -/
theorem take_closest_window_full (l : List ℚ) (x : ℚ) (h : 1 ≤ l.length) :
    Stats.take_closest_window l x l.length = intRange 0 ((l.length : ℤ) - 1) := by
  have hpos := take_closest_le l x
  simp only [Stats.take_closest_window]
  split_ifs <;> exact intRange_congr _ _ _ _ (by omega) (by omega)

theorem intRange_nil (lo hi : ℤ) (h : hi < lo) : intRange lo hi = [] := by
  rw [intRange]
  have h0 : (hi + 1 - lo).toNat = 0 := by omega
  rw [h0]
  rfl

theorem intRange_cons (lo hi : ℤ) (h : lo ≤ hi) :
    intRange lo hi = lo :: intRange (lo + 1) hi := by
  rw [intRange, intRange]
  have h1 : (hi + 1 - lo).toNat = (hi + 1 - (lo + 1)).toNat + 1 := by omega
  rw [h1, List.range_succ_eq_map]
  simp only [List.map_cons, List.map_map]
  congr 1
  · simp
  · apply List.map_congr_left
    intro i _
    simp only [Function.comp_apply, Nat.succ_eq_add_one, Int.ofNat_eq_coe]
    push_cast
    ring

theorem pyGets_drop {α : Type} (l : List α) (i : ℕ) (hi : i ≤ l.length) :
    pyGets l (intRange (i : ℤ) ((l.length : ℤ) - 1)) = some (l.drop i) := by
  by_cases hlt : i < l.length
  · rw [intRange_cons _ _ (by omega), pyGets]
    have hget : pyGet l (i : ℤ) = some l[i] := by
      rw [pyGet, if_pos (by omega)]
      simpa using List.getElem?_eq_getElem hlt
    have hrec : pyGets l (intRange ((i : ℤ) + 1) ((l.length : ℤ) - 1))
        = some (l.drop (i + 1)) := by
      have hr := pyGets_drop l (i + 1) (by omega)
      have hc : ((i + 1 : ℕ) : ℤ) = (i : ℤ) + 1 := by push_cast; ring
      rw [hc] at hr
      exact hr
    rw [hget, hrec, List.drop_eq_getElem_cons hlt]
  · have hieq : i = l.length := by omega
    subst hieq
    rw [intRange_nil _ _ (by omega), pyGets]
    simp [List.drop_length]
termination_by l.length - i

theorem pyGets_full {α : Type} (l : List α) :
    pyGets l (intRange 0 ((l.length : ℤ) - 1)) = some l := by
  have h := pyGets_drop l 0 (by omega)
  simpa using h

theorem credit_congr (ctl : List ℤ → ℕ) (idm : List ℤ → List ℤ) (a m m2 : RTraj)
    (h : m.locs = m2.locs) :
    Stats.credit ctl idm a m = Stats.credit ctl idm a m2 := by
  rw [Stats.credit, Stats.credit, h]

theorem foldl_congr_on {α β : Type} (f g : β → α → β) :
    ∀ (l : List α) (b : β), (∀ a ∈ l, ∀ acc, f acc a = g acc a) →
      l.foldl f b = l.foldl g b
  | [], _, _ => rfl
  | a :: l, b, h => by
    rw [List.foldl_cons, List.foldl_cons, h a (List.mem_cons_self a l) b]
    exact foldl_congr_on f g l _ fun a' ha' acc => h a' (List.mem_cons_of_mem _ ha') acc

/-! ### C5 -/

/-- C5 (counterexample): two originals at equal distance from the
anonymized trajectory.  The exact scan (dataset order) keeps `T1`, whose id
group misses the anonymized id; the fast scan (reference-distance order)
keeps `T2`, whose id group matches.  With `window_size = 2 = n` the two
estimators return different scores (50 vs 0). -/
theorem fast_record_linkage_tie_cex :
    Stats.get_fast_record_linkage Ex.dconst Ex.dref [Ex.T1, Ex.T2] [Ex.A1]
        ([Ex.T1, Ex.T2]).length
      ≠ Stats.get_record_linkage Ex.dconst [Ex.T1, Ex.T2] [Ex.A1] := by
  have hexact : Stats.get_record_linkage Ex.dconst [Ex.T1, Ex.T2] [Ex.A1] = some 0 := by
    norm_num [Stats.get_record_linkage, Stats.credit, Stats.build_control, Stats.build_ids,
      firstMin, firstMinFrom, Ex.dconst, Ex.T1, Ex.T2, Ex.A1]
  have hfast : Stats.get_fast_record_linkage Ex.dconst Ex.dref [Ex.T1, Ex.T2] [Ex.A1]
      ([Ex.T1, Ex.T2]).length = some 50 := by
    norm_num [Stats.get_fast_record_linkage, Stats.take_closest_window, Stats.take_closest,
      Stats.bisect_left, Stats.credit, Stats.build_control, Stats.build_ids,
      firstMin, firstMinFrom, sortByKey, orderedInsertKey, pyGets, pyGet, intRange,
      List.range_succ, Ex.dconst, Ex.dref, Ex.T1, Ex.T2, Ex.A1]
  rw [hexact, hfast]
  decide

/-- C5 (amended): with `window_size` exactly the number of original
trajectories, and provided that for each anonymized trajectory all
originals attaining the minimal `compute_without_map` distance share one
location-sequence content (no ambiguous tie), the fast estimator returns
exactly the exact estimator's score. -/
theorem fast_record_linkage_boundary (d : RTraj → RTraj → ℚ) (dtr : RTraj → ℚ)
    (origs anons : List RTraj) (h0 : origs ≠ [])
    (htie : ∀ a ∈ anons, ∀ x ∈ origs, ∀ y ∈ origs,
      (∀ z ∈ origs, d x a ≤ d z a) → (∀ z ∈ origs, d y a ≤ d z a) → x.locs = y.locs) :
    Stats.get_fast_record_linkage d dtr origs anons origs.length
      = Stats.get_record_linkage d origs anons := by
  have hperm := sortByKey_perm dtr origs
  have hlen : (sortByKey dtr origs).length = origs.length := hperm.length_eq
  have hdlen : ((sortByKey dtr origs).map dtr).length = origs.length := by
    simp [hlen]
  have hwin : ∀ q : ℚ, Stats.take_closest_window ((sortByKey dtr origs).map dtr) q
      origs.length = intRange 0 ((origs.length : ℤ) - 1) := by
    intro q
    have h1 : 1 ≤ ((sortByKey dtr origs).map dtr).length := by
      rw [hdlen]
      exact List.length_pos.mpr h0
    have hfull := take_closest_window_full ((sortByKey dtr origs).map dtr) q h1
    rw [hdlen] at hfull
    exact hfull
  have hscan : pyGets (sortByKey dtr origs) (intRange 0 ((origs.length : ℤ) - 1))
      = some (sortByKey dtr origs) := by
    have hfull := pyGets_full (sortByKey dtr origs)
    rw [hlen] at hfull
    exact hfull
  have hstep : ∀ a ∈ anons, ∀ (acc : Option ℚ),
      (acc.bind fun tp =>
        (pyGets (sortByKey dtr origs)
          (Stats.take_closest_window ((sortByKey dtr origs).map dtr) (dtr a)
            origs.length)).bind fun scanned =>
          match firstMin (fun traj => d traj a) scanned with
          | none => none
          | some min_traj => some (tp + Stats.credit (Stats.build_control origs)
              (Stats.build_ids origs) a min_traj))
      = (acc.bind fun tp =>
        match firstMin (fun traj_ori => d traj_ori a) origs with
        | none => none
        | some min_traj => some (tp + Stats.credit (Stats.build_control origs)
            (Stats.build_ids origs) a min_traj)) := by
    intro a ha acc
    cases acc with
    | none => rfl
    | some tp =>
      rw [Option.some_bind, Option.some_bind, hwin (dtr a), hscan, Option.some_bind]
      match horig : origs, h0 with
      | o :: os, _ =>
        have hssne : sortByKey dtr (o :: os) ≠ [] := by
          intro hnil
          rw [hnil] at hlen
          simp at hlen
        match hsk : sortByKey dtr (o :: os), hssne with
        | s :: ss, _ =>
          obtain ⟨m2, hm2eq, hm2mem, hm2min⟩ := firstMin_spec (fun t => d t a) s ss
          obtain ⟨m1, hm1eq, hm1mem, hm1min⟩ := firstMin_spec (fun t => d t a) o os
          have hperm' : (s :: ss).Perm (o :: os) := by
            rw [← hsk]
            exact hperm
          have hm2mem' : m2 ∈ o :: os := hperm'.mem_iff.mp hm2mem
          have hm2min' : ∀ z ∈ o :: os, d m2 a ≤ d z a := fun z hz =>
            hm2min z (hperm'.mem_iff.mpr hz)
          have hl := htie a ha m1 hm1mem m2 hm2mem' hm1min hm2min'
          rw [hm2eq, hm1eq]
          show some (tp + Stats.credit (Stats.build_control (o :: os))
              (Stats.build_ids (o :: os)) a m2)
            = some (tp + Stats.credit (Stats.build_control (o :: os))
              (Stats.build_ids (o :: os)) a m1)
          exact congrArg (fun q => some (tp + q)) (credit_congr _ _ a m2 m1 hl.symm)
  have htot := foldl_congr_on _ _ anons (some (0 : ℚ)) hstep
  simp only [Stats.get_fast_record_linkage, Stats.get_record_linkage]
  exact congrArg (fun o : Option ℚ => o.bind fun tp =>
    if origs.length = 0 then none else some (tp / (origs.length : ℚ) * 100)) htot

/-- C5 witness: a single original and a single anonymized trajectory with
constant distances; both estimators give the same score. -/
theorem fast_record_linkage_boundary_witness :
    ([Ex.wT] ≠ ([] : List RTraj)) ∧
      (∀ a ∈ [Ex.wA], ∀ x ∈ [Ex.wT], ∀ y ∈ [Ex.wT],
        (∀ z ∈ [Ex.wT], Ex.dzero x a ≤ Ex.dzero z a) →
        (∀ z ∈ [Ex.wT], Ex.dzero y a ≤ Ex.dzero z a) → x.locs = y.locs) ∧
      Stats.get_fast_record_linkage Ex.dzero Ex.drefzero [Ex.wT] [Ex.wA]
        ([Ex.wT]).length = Stats.get_record_linkage Ex.dzero [Ex.wT] [Ex.wA] :=
  ⟨by decide, by decide,
    fast_record_linkage_boundary Ex.dzero Ex.drefzero [Ex.wT] [Ex.wA]
      (by decide) (by decide)⟩

end MobAnon
